import Mathlib

/-!
Verification of the FnckSQL binder module (`src/binder/mod.rs`).

The Rust module is shallowly embedded: `BinderContext` becomes a Lean
structure, the `BTreeMap` fields become association lists kept sorted by a
total order on their keys, the `HashMap`/`HashSet` fields become association
lists / plain lists (their iteration order is irrelevant to every property
proved here), the `Arc<AtomicUsize>` temp-table counter becomes an explicit
`Nat` threaded through each call, and fallible methods return `Except`.
Types that live outside `src/binder/mod.rs` (`TableCatalog`,
`ScalarExpression`, `LogicalPlan`, `JoinType`) are treated as opaque values,
as the binder itself does.
-/

namespace FnckSQL

/-- Rust `TableName = Arc<String>`: an immutable shared string handle;
content equality, so it is modelled as `String`. -/
abbrev TableName := String

/-- Modelled from the spec: `TableCatalog` (crate `catalog`, not under `src/`)
is schema metadata owned by the storage layer; the binder only passes
references around, so it is opaque here. -/
structure TableCatalog where
  id : Nat
deriving DecidableEq, Repr

/-- Modelled from the spec: `ScalarExpression` (crate `expression`, not under
`src/`) is a bound scalar expression; the binder code verified here only
stores and compares such values, so it is opaque. -/
structure ScalarExpression where
  id : Nat
deriving DecidableEq, Repr

/-- Modelled from the spec: `LogicalPlan` (crate `planner`, not under `src/`)
is the opaque plan tree the binder produces. -/
structure LogicalPlan where
  id : Nat
deriving DecidableEq, Repr

/-- Modelled from the spec: `JoinType` (crate `planner::operator::join`, not
under `src/`); only its identity and its derived total order matter to the
binder (it is part of a `BTreeMap` key). -/
inductive JoinType where
  | inner
  | leftOuter
  | rightOuter
  | full
  | cross
deriving DecidableEq, Repr

/-- Variant index of `JoinType`, modelling its derived `Ord`. -/
def JoinType.toNat : JoinType → Nat
  | .inner => 0
  | .leftOuter => 1
  | .rightOuter => 2
  | .full => 3
  | .cross => 4

/-- The `DatabaseError` variants raised by `src/binder/mod.rs`. -/
inductive DatabaseError where
  | TableNotFound
  | InvalidTable (name : String)
  | UnsupportedStmt (text : String)
deriving DecidableEq, Repr

/-- Rust `pub enum InputRefType { AggCall, GroupBy }`. -/
inductive InputRefType where
  | AggCall
  | GroupBy

/-- Rust `pub enum QueryBindStep`: the clause-processing phases, in source order. -/
inductive QueryBindStep where
  | From
  | Join
  | Where
  | Agg
  | Having
  | Distinct
  | Sort
  | Project
  | Limit
deriving DecidableEq, Repr

/-- Rust `pub enum SubQueryType { SubQuery(LogicalPlan), InSubQuery(bool, LogicalPlan) }`. -/
inductive SubQueryType where
  | SubQuery (plan : LogicalPlan)
  | InSubQuery (flag : Bool) (plan : LogicalPlan)
deriving DecidableEq, Repr

/-- Key of the `bind_table` map:
`(TableName, Option<TableName>, Option<JoinType>)`. -/
structure BoundKey where
  table : TableName
  tableAlias : Option TableName
  joinType : Option JoinType
deriving DecidableEq, Repr

/-- Key of the `expr_aliases` map: `(Option<String>, String)`. -/
structure AliasKey where
  qualifier : Option String
  column : String
deriving DecidableEq, Repr

/-- Encode an optional value for lexicographic comparison; `none` sorts below
every `some`, matching Rust `Ord for Option`. -/
def encOpt {γ : Type} (dflt : γ) : Option γ → Lex (Bool × γ)
  | none => toLex (false, dflt)
  | some x => toLex (true, x)

/-- Encoding of `BoundKey` realising the derived lexicographic `Ord` of the
Rust key tuple. -/
def BoundKey.enc (k : BoundKey) : Lex (String × Lex (Lex (Bool × String) × Lex (Bool × Nat))) :=
  toLex (k.table, toLex (encOpt ("") k.tableAlias, encOpt 0 (k.joinType.map JoinType.toNat)))

/-- Encoding of `AliasKey` realising the derived lexicographic `Ord` of the
Rust key tuple. -/
def AliasKey.enc (k : AliasKey) : Lex (Lex (Bool × String) × String) :=
  toLex (encOpt ("") k.qualifier, k.column)

instance : LinearOrder BoundKey :=
  LinearOrder.lift' BoundKey.enc (by
    intro a b h
    have tn : ∀ x y : JoinType, x.toNat = y.toNat → x = y := by
      intro x y hxy
      cases x <;> cases y <;> simp_all [JoinType.toNat]
    obtain ⟨ta, aa, ja⟩ := a
    obtain ⟨tb, ab, jb⟩ := b
    simp only [BoundKey.enc, toLex_inj, Prod.mk.injEq] at h
    obtain ⟨h1, h2, h3⟩ := h
    subst h1
    have ha : aa = ab := by
      cases aa <;> cases ab <;> simp_all [encOpt, toLex_inj]
    have hj : ja = jb := by
      cases ja <;> cases jb <;> simp_all [encOpt, toLex_inj]
      exact tn _ _ h3
    simp [ha, hj])

instance : LinearOrder AliasKey :=
  LinearOrder.lift' AliasKey.enc (by
    intro a b h
    obtain ⟨qa, ca⟩ := a
    obtain ⟨qb, cb⟩ := b
    simp only [AliasKey.enc, toLex_inj, Prod.mk.injEq] at h
    obtain ⟨h1, h2⟩ := h
    cases qa <;> cases qb <;> simp_all [encOpt, toLex_inj])

/-- First-match lookup in an association list; models both `BTreeMap::get`
(on a key-sorted list) and `HashMap::get` (order irrelevant). -/
def alookup {α β : Type} [DecidableEq α] (k : α) : List (α × β) → Option β
  | [] => none
  | q :: rest => if q.1 = k then some q.2 else alookup k rest

/-- Left-biased choice on `Option`, spelling out `Option.orElse` strictly. -/
def ifNone {β : Type} : Option β → Option β → Option β
  | some b, _ => some b
  | none, o => o

/-- Ordered insert with overwrite on an equal key: the behaviour of
`BTreeMap::insert` on the sorted pair list that models the map. -/
def insertSorted {α β : Type} [LinearOrder α] (p : α × β) : List (α × β) → List (α × β)
  | [] => [p]
  | q :: rest =>
    if p.1 < q.1 then p :: q :: rest
    else if p.1 = q.1 then p :: rest
    else q :: insertSorted p rest

/-- Replace-or-append insert: the behaviour of `HashMap::insert` on the
association list that models the map. -/
def hmInsert {α β : Type} [DecidableEq α] (p : α × β) : List (α × β) → List (α × β)
  | [] => [p]
  | q :: rest => if q.1 = p.1 then p :: rest else q :: hmInsert p rest

/-- The key sequence of a map in iteration order. -/
def keys {α β : Type} (l : List (α × β)) : List α := l.map Prod.fst

/-- Build a `BTreeMap` by inserting the given pairs in order, starting from
`base`. -/
def btInsertAll {α β : Type} [LinearOrder α] (base l : List (α × β)) : List (α × β) :=
  l.foldl (fun m p => insertSorted p m) base

/-- Build a `BTreeMap` from scratch by inserting the given pairs in order. -/
def btBuild {α β : Type} [LinearOrder α] (l : List (α × β)) : List (α × β) :=
  btInsertAll [] l

/-- Rust `struct BinderContext` (the borrowed function registries and the table
cache are dropped: nothing verified here reads them; the transaction +
table-cache pair is modelled by the catalog oracle `tbl`, and the shared
`Arc<AtomicUsize>` counter by the `Nat` it currently holds). -/
structure BinderContext where
  /-- Models `transaction.table(table_cache, name)`: the read-only catalog. -/
  tbl : TableName → Option TableCatalog
  /-- Rust `BTreeMap<(TableName, Option<TableName>, Option<JoinType>), &TableCatalog>`. -/
  bind_table : List (BoundKey × TableCatalog)
  /-- Rust `BTreeMap<(Option<String>, String), ScalarExpression>`. -/
  expr_aliases : List (AliasKey × ScalarExpression)
  /-- Rust `HashMap<TableName, TableName>`. -/
  table_aliases : List (TableName × TableName)
  group_by_exprs : List ScalarExpression
  agg_calls : List ScalarExpression
  /-- Rust `HashSet<String>` (source field `using`). -/
  usingSet : List String
  bind_step : QueryBindStep
  /-- Rust `HashMap<QueryBindStep, Vec<SubQueryType>>`, as a total lookup function. -/
  sub_queries : QueryBindStep → Option (List SubQueryType)
  /-- Value currently held by the shared `Arc<AtomicUsize>` counter. -/
  temp_table_id : Nat
  allow_default : Bool

/-- Rust `BinderContext::new`. -/
def BinderContext.new (tbl : TableName → Option TableCatalog) (temp_table_id : Nat) :
    BinderContext where
  tbl := tbl
  bind_table := []
  expr_aliases := []
  table_aliases := []
  group_by_exprs := []
  agg_calls := []
  usingSet := []
  bind_step := .From
  sub_queries := fun _ => none
  temp_table_id := temp_table_id
  allow_default := false

/-- The string `format!("_temp_table_{}_", n)`. -/
def tempTableName (n : Nat) : String :=
  "_temp_table_" ++ Nat.repr n ++ "_"

/-- Rust `BinderContext::temp_table`: `fetch_add(1, SeqCst)` on the shared counter,
then format the fetched value; returns the name and the context with the
advanced counter. -/
def BinderContext.temp_table (ctx : BinderContext) : TableName × BinderContext :=
  (tempTableName ctx.temp_table_id, { ctx with temp_table_id := ctx.temp_table_id + 1 })

/-- Rust `BinderContext::step`. -/
def BinderContext.step (ctx : BinderContext) (bind_step : QueryBindStep) : BinderContext :=
  { ctx with bind_step := bind_step }

/-- Rust `BinderContext::is_step`. -/
def BinderContext.is_step (ctx : BinderContext) (bind_step : QueryBindStep) : Bool :=
  ctx.bind_step = bind_step

/-- Rust `BinderContext::step_now`. -/
def BinderContext.step_now (ctx : BinderContext) : QueryBindStep :=
  ctx.bind_step

/-- Rust `BinderContext::sub_query`: `entry(bind_step).or_default().push(sub_query)`. -/
def BinderContext.sub_query (ctx : BinderContext) (sq : SubQueryType) : BinderContext :=
  { ctx with
    sub_queries := fun s =>
      if s = ctx.bind_step then some ((ctx.sub_queries ctx.bind_step).getD [] ++ [sq])
      else ctx.sub_queries s }

/-- Rust `BinderContext::sub_queries_at_now`: `sub_queries.remove(&bind_step)` —
returns the staged list (if any) and the context with that entry removed. -/
def BinderContext.sub_queries_at_now (ctx : BinderContext) :
    Option (List SubQueryType) × BinderContext :=
  (ctx.sub_queries ctx.bind_step,
   { ctx with
     sub_queries := fun s => if s = ctx.bind_step then none else ctx.sub_queries s })

/-- Rust `BinderContext::table`: consult the alias map first, and look up the
mapped real name on a hit, the literal name otherwise. -/
def BinderContext.table (ctx : BinderContext) (table_name : TableName) : Option TableCatalog :=
  match alookup table_name ctx.table_aliases with
  | some real_name => ctx.tbl real_name
  | none => ctx.tbl table_name

/-- Rust `BinderContext::table_and_bind`: same resolution as `table`; on success
additionally inserts the bound key into `bind_table`, on failure returns
`TableNotFound` (the `?` early return) leaving the context untouched. -/
def BinderContext.table_and_bind (ctx : BinderContext) (table_name : TableName)
    (al : Option TableName) (join_type : Option JoinType) :
    Except DatabaseError TableCatalog × BinderContext :=
  match (match alookup table_name ctx.table_aliases with
         | some real_name => ctx.tbl real_name
         | none => ctx.tbl table_name) with
  | some table =>
    (.ok table,
     { ctx with
       bind_table := insertSorted (⟨table_name, al, join_type⟩, table) ctx.bind_table })
  | none => (.error .TableNotFound, ctx)

/-- The predicate of `BinderContext::bind_table`'s `find`: the key's table
name or alias equals the looked-up identifier. -/
def keyMatches (table_name : String) (k : BoundKey) : Bool :=
  k.table == table_name || k.tableAlias == some table_name

/-- Rust `BinderContext::input_ref_index`. -/
def BinderContext.input_ref_index (ctx : BinderContext) : InputRefType → Nat
  | .AggCall => ctx.agg_calls.length
  | .GroupBy => ctx.agg_calls.length + ctx.group_by_exprs.length

/-- Rust `BinderContext::add_using`. -/
def BinderContext.add_using (ctx : BinderContext) (name : String) : BinderContext :=
  { ctx with usingSet := if name ∈ ctx.usingSet then ctx.usingSet else name :: ctx.usingSet }

/-- Rust `BinderContext::add_alias`. -/
def BinderContext.add_alias (ctx : BinderContext) (alias_table : Option String)
    (alias_column : String) (expr : ScalarExpression) : BinderContext :=
  { ctx with expr_aliases := insertSorted (⟨alias_table, alias_column⟩, expr) ctx.expr_aliases }

/-- Rust `BinderContext::add_table_alias`. -/
def BinderContext.add_table_alias (ctx : BinderContext) (al : TableName)
    (table : TableName) : BinderContext :=
  { ctx with table_aliases := hmInsert (al, table) ctx.table_aliases }

/-- Rust `BinderContext::has_agg_call` (the source tests `group_by_exprs` membership). -/
def BinderContext.has_agg_call (ctx : BinderContext) (expr : ScalarExpression) : Bool :=
  ctx.group_by_exprs.contains expr

/-- Rust `struct Binder { context, parent: Option<&Binder> }`: the scope tree. -/
inductive Binder where
  | mk (context : BinderContext) (parent : Option Binder)

/-- The scope context owned by a binder node. -/
def Binder.context : Binder → BinderContext
  | .mk ctx _ => ctx

/-- The parent link of a binder node. -/
def Binder.parent : Binder → Option Binder
  | .mk _ p => p

/-- Rust `BinderContext::bind_table` (the lookup method; named after the spec's
`find_bound_table` because the Lean field `bind_table` already carries the
map): find a bound entry whose name or alias matches in this scope, else
recurse into the parent chain, else fail with `InvalidTable`. -/
def Binder.find_bound_table : Binder → String → Except DatabaseError TableCatalog
  | .mk ctx parent, table_name =>
    match ctx.bind_table.find? (fun e => keyMatches table_name e.1) with
    | some e => .ok e.2
    | none =>
      match parent with
      | some b => b.find_bound_table table_name
      | none => .error (.InvalidTable table_name)

/-- The contexts of a binder's scope chain, nearest first. -/
def Binder.chain : Binder → List BinderContext
  | .mk ctx none => [ctx]
  | .mk ctx (some b) => ctx :: b.chain

/-- Written from the spec's words, for comparison with
`Binder.find_bound_table`: the catalog reference of a matching bound key in
the nearest scope of the chain that has one. -/
def chainLookup (table_name : String) (cs : List BinderContext) : Option TableCatalog :=
  cs.findSome? fun ctx =>
    (ctx.bind_table.find? (fun e => keyMatches table_name e.1)).map Prod.snd

/-- Rust `Binder::extend`: drain the child context's three maps into the parent
context, entry by entry. -/
def BinderContext.extend (self other : BinderContext) : BinderContext :=
  { self with
    bind_table := btInsertAll self.bind_table other.bind_table
    expr_aliases := btInsertAll self.expr_aliases other.expr_aliases
    table_aliases := other.table_aliases.foldl (fun m p => hmInsert p m) self.table_aliases }

/-- Register aggregate calls one by one, reading `input_ref_index(AggCall)`
before each push (the protocol §4.1 of the spec describes for the aggregate
binder); returns the final context and the indices handed out. -/
def registerAggCalls : BinderContext → List ScalarExpression → BinderContext × List Nat
  | ctx, [] => (ctx, [])
  | ctx, e :: es =>
    let idx := ctx.input_ref_index .AggCall
    let r := registerAggCalls { ctx with agg_calls := ctx.agg_calls ++ [e] } es
    (r.1, idx :: r.2)

/-- Register group-by expressions one by one, reading
`input_ref_index(GroupBy)` before each push. -/
def registerGroupBys : BinderContext → List ScalarExpression → BinderContext × List Nat
  | ctx, [] => (ctx, [])
  | ctx, e :: es =>
    let idx := ctx.input_ref_index .GroupBy
    let r := registerGroupBys { ctx with group_by_exprs := ctx.group_by_exprs ++ [e] } es
    (r.1, idx :: r.2)

/-- One context mutation relevant to subquery staging: advance the bind step,
or stage a subquery at the current step. -/
inductive BindOp where
  | stepTo (s : QueryBindStep)
  | stage (sq : SubQueryType)

/-- Apply one `BindOp` to a context. -/
def applyOp (ctx : BinderContext) : BindOp → BinderContext
  | .stepTo s => ctx.step s
  | .stage sq => ctx.sub_query sq

/-- Run a sequence of `BindOp`s left to right. -/
def runOps (ctx : BinderContext) (ops : List BindOp) : BinderContext :=
  ops.foldl applyOp ctx

/-- Written from the spec's words: the subqueries staged at step `s` by a run
of `ops` whose starting step is `s₀`, in staging order. -/
def stagedAt (s₀ : QueryBindStep) (ops : List BindOp) (s : QueryBindStep) : List SubQueryType :=
  match ops with
  | [] => []
  | .stepTo s' :: rest => stagedAt s' rest s
  | .stage sq :: rest => (if s₀ = s then [sq] else []) ++ stagedAt s₀ rest s

/-- How a staged batch combines with an existing map entry: no batch leaves
the entry alone, a nonempty batch appends to it (creating it if absent). -/
def stagedMerge (old : Option (List SubQueryType)) (l : List SubQueryType) :
    Option (List SubQueryType) :=
  match l with
  | [] => old
  | _ => some (old.getD [] ++ l)

/-- The result of the `i`-th (0-based) `temp_table` call in a chain of calls
threaded through the shared counter. -/
def tempTableCall : BinderContext → Nat → TableName × BinderContext
  | ctx, 0 => ctx.temp_table
  | ctx, i + 1 => tempTableCall ctx.temp_table.2 i

/-- Decimal rendering of `n`, most significant digit first: the list of
characters `format!("{}", n)` prints. -/
def natDecimal (n : Nat) : List Char :=
  if _h : n < 10 then [Nat.digitChar n]
  else natDecimal (n / 10) ++ [Nat.digitChar (n % 10)]
decreasing_by exact Nat.div_lt_self (by omega) (by omega)

/-- Fold decimal digit characters back into a number (left inverse of
`natDecimal`, used to prove the rendering injective). -/
def parseDecimal (acc : Nat) : List Char → Nat
  | [] => acc
  | c :: cs => parseDecimal (acc * 10 + (c.toNat - 48)) cs

/-- Rust `fn lower_ident`: `ident.value.to_lowercase()`, modelled as lower-casing
character by character. -/
def lower_ident (ident : String) : String :=
  (ident.data.map Char.toLower).asString

/-- The textual form of a `sqlparser::ast::ObjectName` (a list of its
identifiers' values; quote styles are not modelled): parts joined by dots,
as its `Display` prints them. -/
def objectNameText (name : List String) : String :=
  String.intercalate "." name

/-- Rust `fn lower_case_name`: accept exactly single-part object names, lower-cased;
otherwise `InvalidTable` carrying the name's textual form. -/
def lower_case_name (name : List String) : Except DatabaseError String :=
  match name with
  | [ident] => .ok (lower_ident ident)
  | _ => .error (.InvalidTable (objectNameText name))

/-- Rust `fn is_valid_identifier` (Rust's Unicode `char::is_alphanumeric` and
`char::is_numeric` are modelled by `Char.isAlphanum` / `Char.isDigit`, and
`char::default()` is `'\0'` = `Char.ofNat 0`). -/
def is_valid_identifier (s : String) : Bool :=
  s.data.all (fun c => c.isAlphanum || c == '_')
    && !(s.data.head?.getD (Char.ofNat 0)).isDigit
    && !s.data.all (fun c => c == '_')

/-- A small concrete context used to witness the resolution theorems: the
catalog knows table `t1` (catalog entry 1), and alias `a` maps to `t1`. -/
def exampleCtx : BinderContext :=
  { BinderContext.new (fun n => if n = "t1" then some ⟨1⟩ else none) 0 with
    table_aliases := [("a", "t1")] }

/-- Written from the spec's words, for comparison with `is_valid_identifier`:
every character alphanumeric or underscore, the first character not a digit,
and the string not composed entirely of underscores. -/
def ValidIdentSpec (s : String) : Prop :=
  (∀ c ∈ s.data, c.isAlphanum = true ∨ c = '_')
    ∧ (∀ c, s.data.head? = some c → c.isDigit = false)
    ∧ ¬(∀ c ∈ s.data, c = '_')

/-! ## Theorems -/

theorem registerAggCalls_eq (ctx : BinderContext) (es : List ScalarExpression) :
    registerAggCalls ctx es =
      ({ ctx with agg_calls := ctx.agg_calls ++ es },
       List.range' ctx.agg_calls.length es.length) := by
  induction es generalizing ctx with
  | nil => simp [registerAggCalls]
  | cons e es ih =>
    simp only [registerAggCalls, BinderContext.input_ref_index, ih, List.length_append,
      List.length_cons, List.length_nil, List.append_assoc, List.singleton_append,
      List.range'_succ, Nat.zero_add]

theorem registerGroupBys_eq (ctx : BinderContext) (es : List ScalarExpression) :
    registerGroupBys ctx es =
      ({ ctx with group_by_exprs := ctx.group_by_exprs ++ es },
       List.range' (ctx.agg_calls.length + ctx.group_by_exprs.length) es.length) := by
  induction es generalizing ctx with
  | nil => simp [registerGroupBys]
  | cons e es ih =>
    simp only [registerGroupBys, BinderContext.input_ref_index, ih, List.length_append,
      List.length_cons, List.length_nil, List.append_assoc, List.singleton_append,
      List.range'_succ, Nat.zero_add, Nat.add_assoc]

/-- C1: `input_ref_index(AggCall)` is the current number of registered
aggregate calls and `input_ref_index(GroupBy)` is aggregate count plus
group-by count; registering `k` aggregates and then `m` group-by expressions
from a fresh scope hands out exactly the indices `0, 1, …, k+m-1`, in order —
contiguous, starting at 0, never repeating. -/
theorem input_ref_index_spec :
    (∀ ctx : BinderContext,
      ctx.input_ref_index .AggCall = ctx.agg_calls.length
        ∧ ctx.input_ref_index .GroupBy = ctx.agg_calls.length + ctx.group_by_exprs.length)
    ∧ (∀ (tbl : TableName → Option TableCatalog) (tid : Nat)
         (aggs gbs : List ScalarExpression),
        (registerGroupBys (registerAggCalls (BinderContext.new tbl tid) aggs).1 gbs).1.input_ref_index
            .GroupBy = aggs.length + gbs.length
          ∧ (registerAggCalls (BinderContext.new tbl tid) aggs).2
              ++ (registerGroupBys (registerAggCalls (BinderContext.new tbl tid) aggs).1 gbs).2
            = List.range (aggs.length + gbs.length)) := by
  refine ⟨fun ctx => ⟨rfl, rfl⟩, fun tbl tid aggs gbs => ⟨?_, ?_⟩⟩
  · simp [registerAggCalls_eq, registerGroupBys_eq, BinderContext.new,
      BinderContext.input_ref_index]
  · simp only [registerAggCalls_eq, registerGroupBys_eq, BinderContext.new,
      List.length_nil, List.nil_append, List.range_eq_range', Nat.zero_add]
    simpa [Nat.add_comm] using List.range'_append_1 0 aggs.length gbs.length

/-- C10: the empty string is not a valid identifier (the all-underscores
rejection triggers vacuously on zero characters). -/
theorem is_valid_identifier_empty : is_valid_identifier ("") = false := by
  decide

/-- C6: `is_valid_identifier` returns `true` exactly when every character is
alphanumeric or underscore, the first character is not a digit, and the
string is not composed entirely of underscores; in particular it accepts
`"valid_column_1"` and rejects `"1_invalid_name"`, `"____"` and
`"invalid_name&"`. -/
theorem is_valid_identifier_spec :
    (∀ s, is_valid_identifier s = true ↔ ValidIdentSpec s)
      ∧ is_valid_identifier ("valid_column_1") = true
      ∧ is_valid_identifier ("1_invalid_name") = false
      ∧ is_valid_identifier ("____") = false
      ∧ is_valid_identifier ("invalid_name&") = false := by
  refine ⟨fun s => ?_, by decide, by decide, by decide, by decide⟩
  constructor
  · intro h
    simp only [is_valid_identifier, Bool.and_eq_true] at h
    obtain ⟨⟨ha, hb⟩, hc⟩ := h
    refine ⟨?_, ?_, ?_⟩
    · intro x hx
      have hx' := List.all_eq_true.mp ha x hx
      simp only [Bool.or_eq_true, beq_iff_eq] at hx'
      exact hx'
    · intro x hx
      rw [hx] at hb
      simpa using hb
    · intro hall
      have : s.data.all (fun c => c == '_') = true :=
        List.all_eq_true.mpr (fun x hx => by simpa using hall x hx)
      rw [this] at hc
      exact absurd hc (by simp)
  · rintro ⟨h1, h2, h3⟩
    simp only [is_valid_identifier, Bool.and_eq_true]
    refine ⟨⟨?_, ?_⟩, ?_⟩
    · refine List.all_eq_true.mpr (fun x hx => ?_)
      rcases h1 x hx with h | h <;> simp [h]
    · rcases hd : s.data with _ | ⟨c, cs⟩
      · simp [hd]
      · have := h2 c (by rw [hd]; rfl)
        simp [hd, this]
    · have : s.data.all (fun c => c == '_') = false := by
        rcases hb : s.data.all (fun c => c == '_') with _ | _
        · rfl
        · exact absurd (fun x hx => by simpa using List.all_eq_true.mp hb x hx) h3
      simp [this]

/-- C9: `lower_case_name` succeeds exactly on single-part object names,
returning the identifier lower-cased; on any other name it fails with
`InvalidTable` carrying the name's textual form. -/
theorem lower_case_name_spec :
    (∀ name, (∃ s, lower_case_name name = .ok s) ↔ name.length = 1)
      ∧ (∀ ident, lower_case_name [ident] = .ok (lower_ident ident))
      ∧ (∀ name, name.length ≠ 1 →
          lower_case_name name = .error (.InvalidTable (objectNameText name))) := by
  refine ⟨fun name => ?_, fun ident => rfl, fun name h => ?_⟩
  · rcases name with _ | ⟨i, _ | ⟨j, r⟩⟩ <;> simp [lower_case_name]
  · rcases name with _ | ⟨i, _ | ⟨j, r⟩⟩
    · rfl
    · exact absurd rfl h
    · rfl

/-- Witness for `lower_case_name_spec`: the two-part name `a.b` has length
`2 ≠ 1` and is rejected with its textual form. -/
theorem lower_case_name_spec_witness :
    lower_case_name (["a", "b"]) = .error (.InvalidTable ("a.b")) :=
  lower_case_name_spec.2.2 (["a", "b"]) (by decide)

theorem stagedMerge_push (old : Option (List SubQueryType)) (sq : SubQueryType)
    (l : List SubQueryType) :
    stagedMerge (some (old.getD [] ++ [sq])) l = stagedMerge old (sq :: l) := by
  cases l <;> simp [stagedMerge]

theorem runOps_sub_queries (ops : List BindOp) (ctx : BinderContext) (s : QueryBindStep) :
    (runOps ctx ops).sub_queries s =
      stagedMerge (ctx.sub_queries s) (stagedAt ctx.bind_step ops s) := by
  induction ops generalizing ctx with
  | nil => rfl
  | cons op rest ih =>
    cases op with
    | stepTo s' =>
      have h1 : runOps ctx (.stepTo s' :: rest) = runOps (ctx.step s') rest := rfl
      rw [h1, ih, stagedAt]
      rfl
    | stage sq =>
      have h1 : runOps ctx (.stage sq :: rest) = runOps (ctx.sub_query sq) rest := rfl
      rw [h1, ih, stagedAt]
      by_cases hbs : ctx.bind_step = s
      · have h2 : (ctx.sub_query sq).sub_queries s
            = some ((ctx.sub_queries s).getD [] ++ [sq]) := by
          simp [BinderContext.sub_query, hbs]
        have h3 : (ctx.sub_query sq).bind_step = ctx.bind_step := rfl
        rw [h3, h2, if_pos hbs, List.singleton_append, stagedMerge_push]
      · have h2 : (ctx.sub_query sq).sub_queries s = ctx.sub_queries s := by
          simp only [BinderContext.sub_query]
          rw [if_neg (fun h => hbs h.symm)]
        have h3 : (ctx.sub_query sq).bind_step = ctx.bind_step := rfl
        rw [h3, h2, if_neg hbs, List.nil_append]

/-- C4: running any sequence of step changes and subquery stagings from a
fresh context, draining (`sub_queries_at_now`) returns exactly the subqueries
staged while the context was at its current step, in staging order (`none`
when there were none); draining again at the same step returns `none`, and
the staged lists of every other step are untouched by the drain. -/
theorem sub_queries_at_now_spec :
    ∀ (tbl : TableName → Option TableCatalog) (tid : Nat) (ops : List BindOp),
      ((runOps (BinderContext.new tbl tid) ops).sub_queries_at_now.1 =
        if stagedAt .From ops (runOps (BinderContext.new tbl tid) ops).bind_step = [] then none
        else some (stagedAt .From ops (runOps (BinderContext.new tbl tid) ops).bind_step))
      ∧ ((runOps (BinderContext.new tbl tid) ops).sub_queries_at_now.2.sub_queries_at_now.1 = none)
      ∧ (∀ s, s ≠ (runOps (BinderContext.new tbl tid) ops).bind_step →
          (runOps (BinderContext.new tbl tid) ops).sub_queries_at_now.2.sub_queries s =
            (runOps (BinderContext.new tbl tid) ops).sub_queries s) := by
  intro tbl tid ops
  refine ⟨?_, ?_, ?_⟩
  · have h := runOps_sub_queries ops (BinderContext.new tbl tid)
      (runOps (BinderContext.new tbl tid) ops).bind_step
    have hnew : (BinderContext.new tbl tid).sub_queries
        (runOps (BinderContext.new tbl tid) ops).bind_step = none := rfl
    have hstep : (BinderContext.new tbl tid).bind_step = .From := rfl
    rw [hnew, hstep] at h
    show (runOps (BinderContext.new tbl tid) ops).sub_queries
        (runOps (BinderContext.new tbl tid) ops).bind_step = _
    rw [h]
    cases stagedAt .From ops (runOps (BinderContext.new tbl tid) ops).bind_step <;>
      simp [stagedMerge]
  · simp [BinderContext.sub_queries_at_now]
  · intro s hs
    simp [BinderContext.sub_queries_at_now, hs]

/-- Witness for `sub_queries_at_now_spec`: a concrete run that stages one
subquery at `From`, moves to `Where` and stages two more; draining at `Where`
returns those two in order, a second drain returns `none`, and the `From`
entry is untouched. -/
theorem sub_queries_at_now_spec_witness :
    ((runOps (BinderContext.new (fun _ => none) 0)
        [.stage (.SubQuery ⟨1⟩), .stepTo .Where, .stage (.SubQuery ⟨2⟩),
         .stage (.InSubQuery true ⟨3⟩)]).sub_queries_at_now.2.sub_queries .From =
      (runOps (BinderContext.new (fun _ => none) 0)
        [.stage (.SubQuery ⟨1⟩), .stepTo .Where, .stage (.SubQuery ⟨2⟩),
         .stage (.InSubQuery true ⟨3⟩)]).sub_queries .From) :=
  (sub_queries_at_now_spec (fun _ => none) 0
    [.stage (.SubQuery ⟨1⟩), .stepTo .Where, .stage (.SubQuery ⟨2⟩),
     .stage (.InSubQuery true ⟨3⟩)]).2.2 .From (by decide)

/-- C3: table resolution consults the alias map first and looks up the mapped
real name on a hit, the literal name only on a miss; `table_and_bind` fails
with `TableNotFound` exactly when that catalog lookup finds nothing, and then
leaves the context (including the bound-table map) unchanged. -/
theorem table_resolution_spec :
    (∀ (ctx : BinderContext) (name real : TableName),
        alookup name ctx.table_aliases = some real → ctx.table name = ctx.tbl real)
    ∧ (∀ (ctx : BinderContext) (name : TableName),
        alookup name ctx.table_aliases = none → ctx.table name = ctx.tbl name)
    ∧ (∀ (ctx : BinderContext) (name : TableName) (al : Option TableName)
         (jt : Option JoinType),
        (ctx.table_and_bind name al jt).1 = .error .TableNotFound ↔ ctx.table name = none)
    ∧ (∀ (ctx : BinderContext) (name : TableName) (al : Option TableName)
         (jt : Option JoinType),
        ctx.table name = none → (ctx.table_and_bind name al jt).2 = ctx) := by
  have hbody : ∀ (ctx : BinderContext) (name : TableName),
      (match alookup name ctx.table_aliases with
       | some real_name => ctx.tbl real_name
       | none => ctx.tbl name) = ctx.table name := fun _ _ => rfl
  refine ⟨?_, ?_, ?_, ?_⟩
  · intro ctx name real h
    simp [BinderContext.table, h]
  · intro ctx name h
    simp [BinderContext.table, h]
  · intro ctx name al jt
    simp only [BinderContext.table_and_bind, hbody]
    cases h : ctx.table name <;> simp
  · intro ctx name al jt h
    simp only [BinderContext.table_and_bind, hbody, h]

/-- Witness for `table_resolution_spec`: in `exampleCtx`, resolving the alias
`a` looks the mapped real name `t1` up in the catalog, and a failed
`table_and_bind` on the unknown name `zzz` leaves the context unchanged. -/
theorem table_resolution_spec_witness :
    exampleCtx.table ("a") = exampleCtx.tbl ("t1")
      ∧ (exampleCtx.table_and_bind ("zzz") none none).2 = exampleCtx :=
  ⟨table_resolution_spec.1 exampleCtx ("a") ("t1") (by decide),
   table_resolution_spec.2.2.2 exampleCtx ("zzz") none none (by decide)⟩

theorem find_bound_table_eq_chain :
    ∀ (b : Binder) (name : String),
      b.find_bound_table name =
        match chainLookup name b.chain with
        | some cat => Except.ok cat
        | none => Except.error (.InvalidTable name)
  | .mk ctx none, name => by
    cases h : ctx.bind_table.find? (fun e => keyMatches name e.1) <;>
      simp [Binder.find_bound_table, Binder.chain, chainLookup, h]
  | .mk ctx (some b), name => by
    have ih := find_bound_table_eq_chain b name
    cases h : ctx.bind_table.find? (fun e => keyMatches name e.1) with
    | none =>
      simp only [Binder.find_bound_table, Binder.chain, chainLookup, List.findSome?_cons, h,
        Option.map_none]
      rw [ih]
      rfl
    | some e =>
      simp [Binder.find_bound_table, Binder.chain, chainLookup, List.findSome?_cons, h]

/-- C2: `find_bound_table` returns the catalog reference of the first bound
entry whose table name or alias equals the identifier in the nearest scope of
the whole ancestor chain that has one, and fails with `InvalidTable` carrying
the identifier when no scope up to the root matches; in particular, when the
local scope has no match, removing the parent link turns a lookup that
succeeded through the parent into an `InvalidTable` failure. -/
theorem find_bound_table_spec :
    (∀ (b : Binder) (name : String),
        b.find_bound_table name =
          match chainLookup name b.chain with
          | some cat => Except.ok cat
          | none => Except.error (.InvalidTable name))
    ∧ (∀ (ctx : BinderContext) (parent : Binder) (name : String) (cat : TableCatalog),
        ctx.bind_table.find? (fun e => keyMatches name e.1) = none →
        (Binder.mk ctx (some parent)).find_bound_table name = .ok cat →
        (Binder.mk ctx none).find_bound_table name = .error (.InvalidTable name)) := by
  refine ⟨find_bound_table_eq_chain, ?_⟩
  intro ctx parent name cat h1 _h2
  simp [Binder.find_bound_table, h1]

/-- Witness for `find_bound_table_spec`: a child scope with an empty bound
map resolves `t` through its parent, and fails with `InvalidTable` once the
parent link is removed. -/
theorem find_bound_table_spec_witness :
    (Binder.mk (BinderContext.new (fun _ => none) 0) none).find_bound_table ("t")
      = .error (.InvalidTable ("t")) :=
  find_bound_table_spec.2 (BinderContext.new (fun _ => none) 0)
    (Binder.mk
      { BinderContext.new (fun _ => none) 0 with
        bind_table := [(⟨"t", none, none⟩, ⟨5⟩)] }
      none)
    ("t") ⟨5⟩ (by decide) (by rfl)

theorem alookup_nil {α β : Type} [DecidableEq α] (k : α) :
    alookup k ([] : List (α × β)) = none := rfl

theorem alookup_cons {α β : Type} [DecidableEq α] (k : α) (q : α × β) (l : List (α × β)) :
    alookup k (q :: l) = if q.1 = k then some q.2 else alookup k l := rfl

theorem ifNone_none {β : Type} (o : Option β) : ifNone none o = o := rfl

theorem ifNone_some {β : Type} (b : β) (o : Option β) : ifNone (some b) o = some b := rfl

theorem alookup_insertSorted {α β : Type} [LinearOrder α] [DecidableEq α] (k : α) (p : α × β)
    (l : List (α × β)) :
    alookup k (insertSorted p l) = if p.1 = k then some p.2 else alookup k l := by
  induction l with
  | nil => simp [insertSorted, alookup_cons, alookup_nil]
  | cons q rest ih =>
    simp only [insertSorted]
    rcases lt_trichotomy p.1 q.1 with h1 | h1 | h1
    · rw [if_pos h1, alookup_cons]
    · have hlt : ¬p.1 < q.1 := by rw [h1]; exact lt_irrefl _
      rw [if_neg hlt, if_pos h1, alookup_cons, alookup_cons]
      by_cases h3 : p.1 = k
      · rw [if_pos h3, if_pos h3]
      · rw [if_neg h3, if_neg h3, if_neg (show ¬q.1 = k from fun hc => h3 (h1.trans hc))]
    · have hlt : ¬p.1 < q.1 := not_lt_of_lt h1
      have hne : ¬p.1 = q.1 := (LT.lt.ne' h1)
      rw [if_neg hlt, if_neg hne, alookup_cons, alookup_cons, ih]
      by_cases h2 : q.1 = k
      · have hpk : ¬p.1 = k := fun hc => (LT.lt.ne' h1) (hc.trans h2.symm)
        rw [if_pos h2, if_neg hpk, if_pos h2]
      · rw [if_neg h2, if_neg h2]

theorem alookup_hmInsert {α β : Type} [DecidableEq α] (k : α) (p : α × β)
    (l : List (α × β)) :
    alookup k (hmInsert p l) = if p.1 = k then some p.2 else alookup k l := by
  induction l with
  | nil => simp [hmInsert, alookup_cons, alookup_nil]
  | cons q rest ih =>
    simp only [hmInsert]
    by_cases h1 : q.1 = p.1
    · rw [if_pos h1, alookup_cons, alookup_cons]
      by_cases h3 : p.1 = k
      · rw [if_pos h3, if_pos h3]
      · rw [if_neg h3, if_neg h3, if_neg (show ¬q.1 = k from fun hc => h3 (h1.symm.trans hc))]
    · rw [if_neg h1, alookup_cons, alookup_cons, ih]
      by_cases h2 : q.1 = k
      · have hpk : ¬p.1 = k := fun hc => h1 (h2.trans hc.symm)
        rw [if_pos h2, if_neg hpk, if_pos h2]
      · rw [if_neg h2, if_neg h2]

theorem alookup_append {α β : Type} [DecidableEq α] (k : α) (l₁ l₂ : List (α × β)) :
    alookup k (l₁ ++ l₂) = ifNone (alookup k l₁) (alookup k l₂) := by
  induction l₁ with
  | nil => rw [List.nil_append, alookup_nil, ifNone_none]
  | cons q rest ih =>
    rw [List.cons_append, alookup_cons, alookup_cons, ih]
    by_cases h : q.1 = k
    · rw [if_pos h, if_pos h, ifNone_some]
    · rw [if_neg h, if_neg h]

theorem alookup_eq_none_of_not_mem {α β : Type} [DecidableEq α] (k : α)
    (l : List (α × β)) (h : k ∉ keys l) : alookup k l = none := by
  induction l with
  | nil => rfl
  | cons q rest ih =>
    simp only [keys, List.map_cons, List.mem_cons, not_or] at h
    rw [alookup_cons, if_neg (show ¬q.1 = k from fun hc => h.1 hc.symm)]
    exact ih h.2

theorem alookup_reverse_of_nodup {α β : Type} [DecidableEq α] (k : α)
    (l : List (α × β)) (h : (keys l).Nodup) : alookup k l.reverse = alookup k l := by
  induction l with
  | nil => rfl
  | cons q rest ih =>
    simp only [keys, List.map_cons, List.nodup_cons] at h
    have hone : alookup k ([q] : List (α × β)) = if q.1 = k then some q.2 else none := rfl
    have htwo : alookup k (q :: rest) = if q.1 = k then some q.2 else alookup k rest := rfl
    rw [List.reverse_cons, alookup_append, ih h.2, hone, htwo]
    by_cases hq : q.1 = k
    · rw [if_pos hq, if_pos hq, alookup_eq_none_of_not_mem k rest (hq ▸ h.1), ifNone_none]
    · rw [if_neg hq, if_neg hq]
      cases alookup k rest <;> rfl

theorem alookup_foldl_ins {α β : Type} [DecidableEq α]
    (ins : α × β → List (α × β) → List (α × β))
    (hins : ∀ (k : α) (p : α × β) (l : List (α × β)),
      alookup k (ins p l) = if p.1 = k then some p.2 else alookup k l)
    (k : α) : ∀ (l base : List (α × β)),
      alookup k (l.foldl (fun m p => ins p m) base)
        = ifNone (alookup k l.reverse) (alookup k base)
  | [], base => by simp [alookup, ifNone]
  | p :: rest, base => by
    have ih := alookup_foldl_ins ins hins k rest (ins p base)
    have h0 : (p :: rest).foldl (fun m p => ins p m) base
        = rest.foldl (fun m p => ins p m) (ins p base) := rfl
    rw [h0, ih, hins, List.reverse_cons, alookup_append]
    cases ha : alookup k rest.reverse <;> by_cases hp : p.1 = k <;>
      simp [ifNone, alookup, hp]

theorem alookup_child_merge {α β : Type} [DecidableEq α]
    (ins : α × β → List (α × β) → List (α × β))
    (hins : ∀ (k : α) (p : α × β) (l : List (α × β)),
      alookup k (ins p l) = if p.1 = k then some p.2 else alookup k l)
    (k : α) (l base : List (α × β)) (h : (keys l).Nodup) :
    alookup k (l.foldl (fun m p => ins p m) base)
      = ifNone (alookup k l) (alookup k base) := by
  rw [alookup_foldl_ins ins hins k l base, alookup_reverse_of_nodup k l h]

/-- C8: `extend` merges the child's bound-table, expression-alias and
table-alias maps into the parent with child entries overwriting same-keyed
parent entries (lookups in the merged maps hit the child first), and leaves
the parent's using set, group-by expressions, aggregate calls, bind step and
staged subqueries untouched. -/
theorem extend_spec :
    ∀ (p c : BinderContext),
      (keys c.bind_table).Nodup →
      (keys c.expr_aliases).Nodup →
      (keys c.table_aliases).Nodup →
      (∀ k, alookup k (p.extend c).bind_table
          = ifNone (alookup k c.bind_table) (alookup k p.bind_table))
      ∧ (∀ k, alookup k (p.extend c).expr_aliases
          = ifNone (alookup k c.expr_aliases) (alookup k p.expr_aliases))
      ∧ (∀ k, alookup k (p.extend c).table_aliases
          = ifNone (alookup k c.table_aliases) (alookup k p.table_aliases))
      ∧ (p.extend c).usingSet = p.usingSet
      ∧ (p.extend c).group_by_exprs = p.group_by_exprs
      ∧ (p.extend c).agg_calls = p.agg_calls
      ∧ (p.extend c).bind_step = p.bind_step
      ∧ (p.extend c).sub_queries = p.sub_queries := by
  intro p c h1 h2 h3
  refine ⟨?_, ?_, ?_, rfl, rfl, rfl, rfl, rfl⟩
  · intro k
    exact alookup_child_merge _ (fun k p l => alookup_insertSorted k p l) k _ _ h1
  · intro k
    exact alookup_child_merge _ (fun k p l => alookup_insertSorted k p l) k _ _ h2
  · intro k
    exact alookup_child_merge _ (fun k p l => alookup_hmInsert k p l) k _ _ h3

/-- Witness for `extend_spec`: merging a one-entry child into `exampleCtx`;
the child's binding for table `t` wins on lookup and the frame fields are
unchanged. -/
theorem extend_spec_witness :
    (∀ k, alookup k (exampleCtx.extend
        { BinderContext.new (fun _ => none) 7 with
          bind_table := [(⟨"t", none, none⟩, ⟨2⟩)] }).bind_table
      = ifNone (alookup k [(⟨"t", none, none⟩, (⟨2⟩ : TableCatalog))])
          (alookup k exampleCtx.bind_table))
    ∧ (exampleCtx.extend
        { BinderContext.new (fun _ => none) 7 with
          bind_table := [(⟨"t", none, none⟩, ⟨2⟩)] }).agg_calls = exampleCtx.agg_calls :=
  ⟨(extend_spec exampleCtx
      { BinderContext.new (fun _ => none) 7 with
        bind_table := [(⟨"t", none, none⟩, ⟨2⟩)] }
      (by decide) (by decide) (by decide)).1,
   (extend_spec exampleCtx
      { BinderContext.new (fun _ => none) 7 with
        bind_table := [(⟨"t", none, none⟩, ⟨2⟩)] }
      (by decide) (by decide) (by decide)).2.2.2.2.2.1⟩

theorem mem_keys_insertSorted {α β : Type} [LinearOrder α] (a : α) (p : α × β)
    (l : List (α × β)) :
    a ∈ keys (insertSorted p l) ↔ a = p.1 ∨ a ∈ keys l := by
  induction l with
  | nil => simp [insertSorted, keys]
  | cons q rest ih =>
    simp only [insertSorted]
    rcases lt_trichotomy p.1 q.1 with h1 | h1 | h1
    · rw [if_pos h1]
      simp [keys]
    · have hlt : ¬p.1 < q.1 := by rw [h1]; exact lt_irrefl _
      rw [if_neg hlt, if_pos h1]
      simp only [keys, List.map_cons, List.mem_cons] at *
      rw [← h1]
      tauto
    · have hlt : ¬p.1 < q.1 := not_lt_of_lt h1
      have hne : ¬p.1 = q.1 := LT.lt.ne' h1
      rw [if_neg hlt, if_neg hne]
      simp only [keys, List.map_cons, List.mem_cons] at *
      rw [ih]
      tauto

theorem sorted_keys_insertSorted {α β : Type} [LinearOrder α] (p : α × β)
    (l : List (α × β)) (h : (keys l).Sorted (· < ·)) :
    (keys (insertSorted p l)).Sorted (· < ·) := by
  induction l with
  | nil => simp [insertSorted, keys]
  | cons q rest ih =>
    simp only [keys, List.map_cons, List.sorted_cons] at h
    obtain ⟨hq, hrest⟩ := h
    simp only [insertSorted]
    rcases lt_trichotomy p.1 q.1 with h1 | h1 | h1
    · rw [if_pos h1]
      simp only [keys, List.map_cons, List.sorted_cons]
      exact ⟨fun b hb => by
        rcases List.mem_cons.mp hb with rfl | hb
        · exact h1
        · exact h1.trans (hq b hb), hq, hrest⟩
    · have hlt : ¬p.1 < q.1 := by rw [h1]; exact lt_irrefl _
      rw [if_neg hlt, if_pos h1]
      simp only [keys, List.map_cons, List.sorted_cons]
      exact ⟨fun b hb => h1 ▸ hq b hb, hrest⟩
    · have hlt : ¬p.1 < q.1 := not_lt_of_lt h1
      have hne : ¬p.1 = q.1 := LT.lt.ne' h1
      rw [if_neg hlt, if_neg hne]
      simp only [keys, List.map_cons, List.sorted_cons]
      refine ⟨fun b hb => ?_, ih hrest⟩
      rcases (mem_keys_insertSorted b p rest).mp hb with rfl | hb
      · exact h1
      · exact hq b hb

theorem mem_keys_btInsertAll {α β : Type} [LinearOrder α] (a : α) :
    ∀ (l base : List (α × β)),
      a ∈ keys (btInsertAll base l) ↔ a ∈ keys l ∨ a ∈ keys base
  | [], base => by simp [btInsertAll, keys]
  | p :: rest, base => by
    have ih := mem_keys_btInsertAll a rest (insertSorted p base)
    have h0 : btInsertAll base (p :: rest) = btInsertAll (insertSorted p base) rest := rfl
    rw [h0, ih, mem_keys_insertSorted]
    simp only [keys, List.map_cons, List.mem_cons]
    tauto

theorem sorted_keys_btInsertAll {α β : Type} [LinearOrder α] :
    ∀ (l base : List (α × β)), (keys base).Sorted (· < ·) →
      (keys (btInsertAll base l)).Sorted (· < ·)
  | [], _, h => h
  | p :: rest, base, h =>
    sorted_keys_btInsertAll rest (insertSorted p base) (sorted_keys_insertSorted p base h)

theorem sorted_lt_eq_of_mem_iff {α : Type} [LinearOrder α] {l₁ l₂ : List α}
    (h₁ : l₁.Sorted (· < ·)) (h₂ : l₂.Sorted (· < ·)) (hm : ∀ a, a ∈ l₁ ↔ a ∈ l₂) :
    l₁ = l₂ := by
  haveI : IsIrrefl α (· < ·) := ⟨fun a => lt_irrefl a⟩
  haveI : IsAntisymm α (· < ·) := ⟨fun a b hab hba => absurd hba (lt_asymm hab)⟩
  have ht : l₁.toFinset = l₂.toFinset := by
    ext a
    simp only [List.mem_toFinset]
    exact hm a
  exact List.eq_of_perm_of_sorted
    (List.perm_of_nodup_nodup_toFinset_eq h₁.nodup h₂.nodup ht) h₁ h₂

/-- C5: two bound-table maps built by binding the same set of
(name, alias, join-type) keys, in any insertion orders, iterate their keys in
the same deterministic sequence — the ascending sequence in the total key
order, independent of any hashing. -/
theorem bind_table_order_spec :
    ∀ (l₁ l₂ : List (BoundKey × TableCatalog)),
      (∀ k, k ∈ keys l₁ ↔ k ∈ keys l₂) →
      keys (btBuild l₁) = keys (btBuild l₂)
        ∧ (keys (btBuild l₁)).Sorted (· < ·)
        ∧ (∀ k, k ∈ keys (btBuild l₁) ↔ k ∈ keys l₁) := by
  intro l₁ l₂ hm
  have s₁ : (keys (btBuild l₁)).Sorted (· < ·) :=
    sorted_keys_btInsertAll l₁ [] (by simp [keys])
  have s₂ : (keys (btBuild l₂)).Sorted (· < ·) :=
    sorted_keys_btInsertAll l₂ [] (by simp [keys])
  have m₁ : ∀ k, k ∈ keys (btBuild l₁) ↔ k ∈ keys l₁ := fun k => by
    rw [btBuild, mem_keys_btInsertAll]
    simp [keys]
  have m₂ : ∀ k, k ∈ keys (btBuild l₂) ↔ k ∈ keys l₂ := fun k => by
    rw [btBuild, mem_keys_btInsertAll]
    simp [keys]
  exact ⟨sorted_lt_eq_of_mem_iff s₁ s₂ (fun a => (m₁ a).trans ((hm a).trans (m₂ a).symm)),
    s₁, m₁⟩

/-- Witness for `bind_table_order_spec`: inserting the keys
`(t1, -, -)` and `(t2, a, inner)` in either order yields the same sorted key
sequence. -/
theorem bind_table_order_spec_witness :
    keys (btBuild [((⟨"t1", none, none⟩ : BoundKey), (⟨1⟩ : TableCatalog)),
        (⟨"t2", some "a", some .inner⟩, ⟨2⟩)])
      = keys (btBuild [((⟨"t2", some "a", some .inner⟩ : BoundKey), (⟨2⟩ : TableCatalog)),
        (⟨"t1", none, none⟩, ⟨1⟩)]) :=
  (bind_table_order_spec
    [(⟨"t1", none, none⟩, ⟨1⟩), (⟨"t2", some "a", some .inner⟩, ⟨2⟩)]
    [(⟨"t2", some "a", some .inner⟩, ⟨2⟩), (⟨"t1", none, none⟩, ⟨1⟩)]
    (fun k => by simp only [keys, List.map_cons, List.map_nil, List.mem_cons]; tauto)).1

theorem toDigitsCore_eq_natDecimal :
    ∀ (f n : Nat) (l : List Char), n ≤ f →
      Nat.toDigitsCore 10 (f + 1) n l = natDecimal n ++ l := by
  intro f
  induction f with
  | zero =>
    intro n l h
    have hn : n = 0 := Nat.le_zero.mp h
    subst hn
    simp [Nat.toDigitsCore, natDecimal]
  | succ f ih =>
    intro n l h
    by_cases h10 : n < 10
    · have hdiv : n / 10 = 0 := Nat.div_eq_of_lt h10
      have hmod : n % 10 = n := Nat.mod_eq_of_lt h10
      simp [Nat.toDigitsCore, hdiv, hmod, natDecimal, h10]
    · have hdiv0 : ¬n / 10 = 0 := by omega
      have hle : n / 10 ≤ f := by omega
      have step : Nat.toDigitsCore 10 (f + 1 + 1) n l
          = Nat.toDigitsCore 10 (f + 1) (n / 10) (Nat.digitChar (n % 10) :: l) := by
        simp [Nat.toDigitsCore, hdiv0]
      have hne : natDecimal n = natDecimal (n / 10) ++ [Nat.digitChar (n % 10)] := by
        rw [natDecimal]
        exact dif_neg h10
      rw [step, ih (n / 10) _ hle, hne, List.append_assoc, List.singleton_append]

theorem repr_eq_natDecimal (n : Nat) : Nat.repr n = (natDecimal n).asString := by
  have h := toDigitsCore_eq_natDecimal n n [] (Nat.le_refl n)
  show (Nat.toDigitsCore 10 (n + 1) n []).asString = _
  rw [h, List.append_nil]

theorem parseDecimal_append (l₁ l₂ : List Char) :
    ∀ acc, parseDecimal acc (l₁ ++ l₂) = parseDecimal (parseDecimal acc l₁) l₂ := by
  induction l₁ with
  | nil => intro acc; rfl
  | cons c cs ih => intro acc; exact ih _

theorem digitChar_val : ∀ d, d < 10 → (Nat.digitChar d).toNat - 48 = d := by decide

theorem parseDecimal_nil (acc : Nat) : parseDecimal acc [] = acc := rfl

theorem parseDecimal_cons (acc : Nat) (c : Char) (cs : List Char) :
    parseDecimal acc (c :: cs) = parseDecimal (acc * 10 + (c.toNat - 48)) cs := rfl

theorem parseDecimal_natDecimal :
    ∀ n acc : Nat, parseDecimal acc (natDecimal n) = acc * 10 ^ (natDecimal n).length + n := by
  intro n
  induction n using Nat.strong_induction_on with
  | _ n ih =>
    intro acc
    by_cases h10 : n < 10
    · have h : natDecimal n = [Nat.digitChar n] := by
        rw [natDecimal]
        exact dif_pos h10
      rw [h, parseDecimal_cons, parseDecimal_nil, digitChar_val n h10]
      simp
    · have h : natDecimal n = natDecimal (n / 10) ++ [Nat.digitChar (n % 10)] := by
        rw [natDecimal]
        exact dif_neg h10
      rw [h, parseDecimal_append, ih (n / 10) (Nat.div_lt_self (by omega) (by omega)),
        parseDecimal_cons, parseDecimal_nil, digitChar_val (n % 10) (Nat.mod_lt _ (by omega))]
      rw [List.length_append, List.length_cons, List.length_nil]
      calc (acc * 10 ^ (natDecimal (n / 10)).length + n / 10) * 10 + n % 10
          = acc * (10 ^ (natDecimal (n / 10)).length * 10) + (10 * (n / 10) + n % 10) := by
            ring
        _ = acc * 10 ^ ((natDecimal (n / 10)).length + (0 + 1)) + n := by
            rw [Nat.div_add_mod, ← pow_succ]

theorem natDecimal_injective : Function.Injective natDecimal := by
  intro a b h
  have ha := parseDecimal_natDecimal a 0
  have hb := parseDecimal_natDecimal b 0
  rw [h] at ha
  rw [Nat.zero_mul, Nat.zero_add] at ha hb
  exact ha ▸ hb

theorem natRepr_injective : Function.Injective Nat.repr := by
  intro a b h
  apply natDecimal_injective
  rw [repr_eq_natDecimal, repr_eq_natDecimal] at h
  have h' := congrArg String.data h
  exact h'

theorem tempTableName_injective : Function.Injective tempTableName := by
  intro a b h
  apply natRepr_injective
  have h' := congrArg String.data h
  simp only [tempTableName, String.data_append] at h'
  rw [List.append_assoc, List.append_assoc] at h'
  have h2 := List.append_cancel_left h'
  have h3 := List.append_cancel_right h2
  exact String.ext h3

theorem tempTableCall_fst (i : Nat) :
    ∀ ctx : BinderContext, (tempTableCall ctx i).1 = tempTableName (ctx.temp_table_id + i) := by
  induction i with
  | zero => intro ctx; rfl
  | succ i ih =>
    intro ctx
    show (tempTableCall ctx.temp_table.2 i).1 = _
    rw [ih ctx.temp_table.2]
    have : ctx.temp_table.2.temp_table_id = ctx.temp_table_id + 1 := rfl
    rw [this, Nat.add_assoc, Nat.add_comm 1 i]

/-- C7: `temp_table` reads the shared counter, increments it, and formats the
read value; any two distinct calls threaded through the same counter handle
therefore return distinct synthesized table names. -/
theorem temp_table_spec :
    (∀ ctx : BinderContext,
        ctx.temp_table.1 = tempTableName ctx.temp_table_id
          ∧ ctx.temp_table.2.temp_table_id = ctx.temp_table_id + 1)
    ∧ (∀ (ctx : BinderContext) (i j : Nat), i ≠ j →
        (tempTableCall ctx i).1 ≠ (tempTableCall ctx j).1) := by
  refine ⟨fun ctx => ⟨rfl, rfl⟩, fun ctx i j hij => ?_⟩
  rw [tempTableCall_fst i ctx, tempTableCall_fst j ctx]
  intro hc
  exact hij (by have := tempTableName_injective hc; omega)

/-- Witness for `temp_table_spec`: the first two calls on a fresh context
return different names. -/
theorem temp_table_spec_witness :
    (tempTableCall (BinderContext.new (fun _ => none) 0) 0).1
      ≠ (tempTableCall (BinderContext.new (fun _ => none) 0) 1).1 :=
  temp_table_spec.2 (BinderContext.new (fun _ => none) 0) 0 1 (by decide)

end FnckSQL
